import Mathlib

/-!
Verification of the OSM-to-3DM footprint pipeline (`osm_to_3dm.py`).

The Python source is shallowly embedded:

* Python floats are modelled as exact rational numbers.  To keep every
  definition executable by the kernel we represent them by the fraction type
  `Frac` (integer numerator, positive natural denominator, no gcd
  normalisation), interpreted into `ℚ` by `Frac.toRat`.  Arithmetic is exact;
  rounding behaviour of IEEE doubles is idealised away.  Python `float(...)`
  string conversion is modelled on decimal literals (sign, digits, optional
  fraction and exponent) and — where the height resolver is concerned — on
  the special values `inf`/`nan` through the `PyFloat` extension, which
  carries IEEE comparison and arithmetic semantics for them; digit-group
  underscores and the overflow of huge literals to infinity are not
  modelled.
* Python dicts of tags are modelled as association lists with first-match
  lookup (`tagGet`); dict iteration order is insertion order, as in Python.
* Python exceptions that the code catches locally (`KeyError` during node
  resolution, `ValueError` in `float`) become `Option` results.
* The two `while` loops of `assemble_rings` are written with an explicit
  fuel argument equal to the size of the fragment pool; since every
  iteration of either loop consumes at least one pool element, the fuel
  never runs out before the loop's own exit condition holds, so the
  embedding computes exactly what the Python loops compute.
-/

/-- Exact rational numbers used to model Python floats: an integer numerator
over a positive natural denominator, without gcd reduction (so that all
operations are kernel-computable). -/
structure Frac where
  num : Int
  den : Nat
  den_pos : 0 < den

instance : DecidableEq Frac := fun a b =>
  if h : a.num = b.num ∧ a.den = b.den then
    isTrue (by cases a; cases b; simp_all)
  else
    isFalse (by intro e; cases e; simp at h)

/-- Build a fraction from a numerator and a (intended positive) denominator. -/
def mkFrac (n : Int) (d : Nat) : Frac :=
  if h : 0 < d then ⟨n, d, h⟩ else ⟨n, 1, Nat.one_pos⟩

def Frac.ofNat (n : Nat) : Frac := ⟨n, 1, Nat.one_pos⟩

def Frac.add (a b : Frac) : Frac :=
  ⟨a.num * b.den + b.num * a.den, a.den * b.den, Nat.mul_pos a.den_pos b.den_pos⟩

def Frac.neg (a : Frac) : Frac := ⟨-a.num, a.den, a.den_pos⟩

def Frac.sub (a b : Frac) : Frac := a.add b.neg

def Frac.mul (a b : Frac) : Frac :=
  ⟨a.num * b.num, a.den * b.den, Nat.mul_pos a.den_pos b.den_pos⟩

/-- Exact division.  The Python code never divides by zero (cf. claim C10);
division by a zero fraction is therefore given the harmless value 0. -/
def Frac.div (a b : Frac) : Frac :=
  if hz : b.num = 0 then ⟨0, 1, Nat.one_pos⟩
  else if b.num < 0 then
    ⟨-a.num * b.den, a.den * b.num.natAbs,
      Nat.mul_pos a.den_pos (Int.natAbs_pos.mpr hz)⟩
  else
    ⟨a.num * b.den, a.den * b.num.natAbs,
      Nat.mul_pos a.den_pos (Int.natAbs_pos.mpr hz)⟩

instance : Add Frac := ⟨Frac.add⟩
instance : Sub Frac := ⟨Frac.sub⟩
instance : Mul Frac := ⟨Frac.mul⟩
instance : Neg Frac := ⟨Frac.neg⟩

/-- Boolean `≤` on fractions (cross multiplication; denominators positive). -/
def Frac.ble (a b : Frac) : Bool := a.num * b.den ≤ b.num * a.den

/-- Boolean `<` on fractions. -/
def Frac.blt (a b : Frac) : Bool := a.num * b.den < b.num * a.den

/-- Boolean numeric equality on fractions. -/
def Frac.beq (a b : Frac) : Bool := a.num * b.den = b.num * a.den

/-- Python `max` on two floats: the second argument wins only when strictly
greater. -/
def Frac.fmax (a b : Frac) : Frac := if Frac.blt a b then b else a

/-- Interpretation of a fraction as a rational number. -/
def Frac.toRat (a : Frac) : ℚ := (a.num : ℚ) / (a.den : ℚ)

theorem Frac.den_cast_pos (a : Frac) : (0 : ℚ) < (a.den : ℚ) := by
  exact_mod_cast a.den_pos

theorem Frac.den_cast_ne (a : Frac) : ((a.den : ℚ)) ≠ 0 :=
  ne_of_gt a.den_cast_pos

theorem Frac.toRat_ofNat (n : Nat) : (Frac.ofNat n).toRat = (n : ℚ) := by
  simp [Frac.ofNat, Frac.toRat]

theorem Frac.toRat_mkFrac (n : Int) (d : Nat) (h : 0 < d) :
    (mkFrac n d).toRat = (n : ℚ) / (d : ℚ) := by
  simp [mkFrac, h, Frac.toRat]

theorem Frac.toRat_add (a b : Frac) : (a + b).toRat = a.toRat + b.toRat := by
  show (a.add b).toRat = _
  unfold Frac.add Frac.toRat
  have ha := a.den_cast_ne
  have hb := b.den_cast_ne
  field_simp

theorem Frac.toRat_neg (a : Frac) : (-a).toRat = -a.toRat := by
  show (a.neg).toRat = _
  unfold Frac.neg Frac.toRat
  push_cast
  ring

theorem Frac.toRat_sub (a b : Frac) : (a - b).toRat = a.toRat - b.toRat := by
  show (a.sub b).toRat = _
  unfold Frac.sub
  rw [show a.add b.neg = a + (-b) from rfl, Frac.toRat_add, Frac.toRat_neg]
  ring

theorem Frac.toRat_mul (a b : Frac) : (a * b).toRat = a.toRat * b.toRat := by
  show (a.mul b).toRat = _
  unfold Frac.mul Frac.toRat
  have ha := a.den_cast_ne
  have hb := b.den_cast_ne
  field_simp

theorem Frac.toRat_div (a b : Frac) (h : b.num ≠ 0) :
    (a.div b).toRat = a.toRat / b.toRat := by
  unfold Frac.div Frac.toRat
  have ha := a.den_cast_ne
  have hb := b.den_cast_ne
  have hbq : ((b.num : ℚ)) ≠ 0 := by exact_mod_cast h
  rcases lt_trichotomy b.num 0 with hn | hn | hn
  · have hq : ((b.num : ℚ)) < 0 := by exact_mod_cast hn
    simp only [dif_neg h, if_pos hn]
    push_cast [Int.cast_natAbs, abs_of_neg hn]
    field_simp
  · exact absurd hn h
  · have hq : (0 : ℚ) < ((b.num : ℚ)) := by exact_mod_cast hn
    simp only [dif_neg h, if_neg (not_lt.mpr (le_of_lt hn))]
    push_cast [Int.cast_natAbs, abs_of_pos hn]
    field_simp

theorem Frac.ble_iff (a b : Frac) : a.ble b = true ↔ a.toRat ≤ b.toRat := by
  unfold Frac.ble Frac.toRat
  rw [div_le_div_iff a.den_cast_pos b.den_cast_pos]
  rw [decide_eq_true_eq]
  constructor
  · intro h
    exact_mod_cast h
  · intro h
    exact_mod_cast h

theorem Frac.blt_iff (a b : Frac) : a.blt b = true ↔ a.toRat < b.toRat := by
  unfold Frac.blt Frac.toRat
  rw [div_lt_div_iff a.den_cast_pos b.den_cast_pos]
  rw [decide_eq_true_eq]
  constructor
  · intro h
    exact_mod_cast h
  · intro h
    exact_mod_cast h

theorem Frac.beq_iff (a b : Frac) : a.beq b = true ↔ a.toRat = b.toRat := by
  unfold Frac.beq Frac.toRat
  rw [div_eq_div_iff a.den_cast_ne b.den_cast_ne]
  rw [decide_eq_true_eq]
  constructor
  · intro h
    exact_mod_cast h
  · intro h
    exact_mod_cast h

theorem Frac.toRat_fmax (a b : Frac) : (a.fmax b).toRat = max a.toRat b.toRat := by
  unfold Frac.fmax
  by_cases h : a.blt b = true
  · rw [if_pos h]
    exact (max_eq_right (le_of_lt ((Frac.blt_iff a b).mp h))).symm
  · rw [if_neg h]
    have : ¬ a.toRat < b.toRat := fun hc => h ((Frac.blt_iff a b).mpr hc)
    exact (max_eq_left (not_lt.mp this)).symm

/-! ### Tag maps and string helpers

Python dicts of OSM tags become association lists with first-match lookup.
Characters are processed through `String.data`; only the ASCII fragment of
`str.lower` / `str.strip` is modelled, which covers all keys and values the
pipeline compares against. -/

/-- Tag dictionaries: key-value association lists, first match wins. -/
abbrev TagMap := List (String × String)

/-- Python `tags.get(k)` / `k in tags`. -/
def tagGet (tags : TagMap) (k : String) : Option String :=
  match tags.find? (fun p => p.1 = k) with
  | some p => some p.2
  | none => none

/-- Python `is_building`: `"building" in tags or "building:part" in tags`. -/
def is_building (tags : TagMap) : Bool :=
  (tagGet tags "building").isSome || (tagGet tags "building:part").isSome

def lowerChar (c : Char) : Char :=
  if 'A' ≤ c ∧ c ≤ 'Z' then Char.ofNat (c.toNat + 32) else c

def isSpaceChar (c : Char) : Bool :=
  c = ' ' || c = '\t' || c = '\n' || c = '\r'

/-- Python `str.strip()` (ASCII whitespace). -/
def stripChars (cs : List Char) : List Char :=
  ((cs.dropWhile isSpaceChar).reverse.dropWhile isSpaceChar).reverse

def digitsToNat (cs : List Char) : Nat :=
  cs.foldl (fun a c => a * 10 + (c.toNat - 48)) 0

/-- Mantissa of a decimal literal: digits with an optional fractional part.
Returns its value and the unconsumed characters. -/
def parseMantissa (cs : List Char) : Option (Frac × List Char) :=
  let ip := cs.takeWhile Char.isDigit
  let r1 := cs.dropWhile Char.isDigit
  match r1 with
  | '.' :: r2 =>
      let fp := r2.takeWhile Char.isDigit
      let r3 := r2.dropWhile Char.isDigit
      if ip = [] ∧ fp = [] then none
      else some (Frac.ofNat (digitsToNat ip) + mkFrac (digitsToNat fp) (10 ^ fp.length), r3)
  | _ => if ip = [] then none else some (Frac.ofNat (digitsToNat ip), r1)

/-- Exponent part after `e`: optional sign, then a non-empty digit string
consuming the rest of the input. -/
def parseExpPart : List Char → Option Int
  | [] => none
  | '+' :: cs => if cs ≠ [] ∧ cs.all Char.isDigit then some (digitsToNat cs) else none
  | '-' :: cs => if cs ≠ [] ∧ cs.all Char.isDigit then some (-(digitsToNat cs : Int)) else none
  | cs => if cs.all Char.isDigit then some (digitsToNat cs) else none

def applyExp (m : Frac) (k : Int) : Frac :=
  if 0 ≤ k then m * Frac.ofNat (10 ^ k.toNat)
  else m.div (Frac.ofNat (10 ^ (-k).toNat))

def parseUnsigned (cs : List Char) : Option Frac :=
  match parseMantissa cs with
  | none => none
  | some (m, rest) =>
      match rest with
      | [] => some m
      | 'e' :: r => (parseExpPart r).map (applyExp m)
      | 'E' :: r => (parseExpPart r).map (applyExp m)
      | _ => none

/-- Model of Python `float(...)` restricted to finite decimal literals:
optional surrounding whitespace, optional sign, digits with optional
fractional part and optional exponent.  The special values `inf`/`nan` are
handled by the full model `pyFloatFull` below, which the height resolver
uses; this finite fragment serves the concrete examples of claim C7. -/
def pyFloat (s : String) : Option Frac :=
  match stripChars s.data with
  | '+' :: cs => parseUnsigned cs
  | '-' :: cs => (parseUnsigned cs).map Frac.neg
  | cs => parseUnsigned cs

/-- Embedding of `parse_float` (osm_to_3dm.py lines 123-140): trim and
lowercase, treat a comma as decimal separator when no period is present,
keep the first `;`/`|` alternative, strip a trailing `m`, then parse. -/
def parse_float (value : String) : Option Frac :=
  let cleaned := String.mk ((stripChars value.data).map lowerChar)
  if cleaned = "" then none
  else
    let cleaned :=
      if cleaned.data.contains ',' && !(cleaned.data.contains '.') then
        String.mk (cleaned.data.map (fun c => if c = ',' then '.' else c))
      else cleaned
    let cleaned :=
      if cleaned.data.contains ';' then String.mk (cleaned.data.takeWhile (· ≠ ';'))
      else if cleaned.data.contains '|' then String.mk (cleaned.data.takeWhile (· ≠ '|'))
      else cleaned
    let cleaned :=
      if cleaned.data.getLastD ' ' = 'm' then String.mk cleaned.data.dropLast
      else cleaned
    pyFloat cleaned

/-! ### The full Python float model

Heights flow through Python `float(...)`, which besides finite decimal
literals also accepts the special values `inf`, `-inf` and `nan`;
comparisons and arithmetic on them follow IEEE-754 (every comparison
against `nan` is false, `inf * 0` is `nan`, opposite infinities cancel to
`nan`).  `PyFloat` extends the exact finite fractions with these special
values, and `parse_float_full` embeds the source's `parse_float` over this
full model; the finite-fragment `parse_float` above is kept for the
concrete finite examples of claim C7. -/

inductive PyFloat where
  | finite : Frac → PyFloat
  | inf : PyFloat
  | ninf : PyFloat
  | nan : PyFloat
deriving DecidableEq

/-- Python `<=` on floats: false whenever `nan` is involved. -/
def PyFloat.ble : PyFloat → PyFloat → Bool
  | .nan, _ => false
  | _, .nan => false
  | .ninf, _ => true
  | _, .ninf => false
  | _, .inf => true
  | .inf, _ => false
  | .finite a, .finite b => Frac.ble a b

/-- Python `<` on floats: false whenever `nan` is involved. -/
def PyFloat.blt : PyFloat → PyFloat → Bool
  | .nan, _ => false
  | _, .nan => false
  | .ninf, .ninf => false
  | .ninf, _ => true
  | _, .ninf => false
  | .inf, _ => false
  | .finite _, .inf => true
  | .finite a, .finite b => Frac.blt a b

/-- Python `+` on floats: `nan` propagates, opposite infinities give `nan`. -/
def PyFloat.add : PyFloat → PyFloat → PyFloat
  | .nan, _ => .nan
  | _, .nan => .nan
  | .inf, .ninf => .nan
  | .ninf, .inf => .nan
  | .inf, _ => .inf
  | _, .inf => .inf
  | .ninf, _ => .ninf
  | _, .ninf => .ninf
  | .finite a, .finite b => .finite (a + b)

/-- Python `*` on floats: `nan` propagates, `inf * 0` is `nan`, infinities
multiply by sign. -/
def PyFloat.mul : PyFloat → PyFloat → PyFloat
  | .nan, _ => .nan
  | _, .nan => .nan
  | .inf, .inf => .inf
  | .inf, .ninf => .ninf
  | .ninf, .inf => .ninf
  | .ninf, .ninf => .inf
  | .inf, .finite b => if b.num = 0 then .nan else if b.num < 0 then .ninf else .inf
  | .finite a, .inf => if a.num = 0 then .nan else if a.num < 0 then .ninf else .inf
  | .ninf, .finite b => if b.num = 0 then .nan else if b.num < 0 then .inf else .ninf
  | .finite a, .ninf => if a.num = 0 then .nan else if a.num < 0 then .inf else .ninf
  | .finite a, .finite b => .finite (a * b)

def PyFloat.pneg : PyFloat → PyFloat
  | .nan => .nan
  | .inf => .ninf
  | .ninf => .inf
  | .finite a => .finite (-a)

/-- Python `max` on two floats: the second argument wins only when strictly
greater (so `max(nan, x) = nan` and `max(x, nan) = x`). -/
def PyFloat.fmax (a b : PyFloat) : PyFloat := if PyFloat.blt a b then b else a

theorem PyFloat.ble_finite (a b : Frac) :
    PyFloat.ble (.finite a) (.finite b) = Frac.ble a b := rfl

theorem PyFloat.blt_finite (a b : Frac) :
    PyFloat.blt (.finite a) (.finite b) = Frac.blt a b := rfl

theorem PyFloat.add_finite (a b : Frac) :
    PyFloat.add (.finite a) (.finite b) = .finite (a + b) := rfl

theorem PyFloat.mul_finite (a b : Frac) :
    PyFloat.mul (.finite a) (.finite b) = .finite (a * b) := rfl

theorem PyFloat.fmax_finite (a b : Frac) :
    PyFloat.fmax (.finite a) (.finite b) = .finite (Frac.fmax a b) := by
  unfold PyFloat.fmax Frac.fmax
  rw [PyFloat.blt_finite]
  by_cases h : Frac.blt a b = true
  · rw [if_pos h, if_pos h]
  · rw [if_neg h, if_neg h]

/-- Python `float(...)` also accepts `inf`, `infinity` and `nan`
(case-insensitively); everything else goes through the decimal-literal
parser. -/
def parseUnsignedFull (cs : List Char) : Option PyFloat :=
  if cs.map lowerChar = "inf".data ∨ cs.map lowerChar = "infinity".data then
    some PyFloat.inf
  else if cs.map lowerChar = "nan".data then some PyFloat.nan
  else (parseUnsigned cs).map PyFloat.finite

/-- Model of Python `float(...)` over the full float model: optional
surrounding whitespace, optional sign, then a decimal literal or a special
value. -/
def pyFloatFull (s : String) : Option PyFloat :=
  match stripChars s.data with
  | '+' :: cs => parseUnsignedFull cs
  | '-' :: cs => (parseUnsignedFull cs).map PyFloat.pneg
  | cs => parseUnsignedFull cs

/-- Embedding of `parse_float` (osm_to_3dm.py lines 123-140) over the full
float model: the identical cleaning pipeline (trim and lowercase, comma as
decimal separator when no period is present, first `;`/`|` alternative,
trailing `m` stripped), followed by the full `float(...)` conversion. -/
def parse_float_full (value : String) : Option PyFloat :=
  let cleaned := String.mk ((stripChars value.data).map lowerChar)
  if cleaned = "" then none
  else
    let cleaned :=
      if cleaned.data.contains ',' && !(cleaned.data.contains '.') then
        String.mk (cleaned.data.map (fun c => if c = ',' then '.' else c))
      else cleaned
    let cleaned :=
      if cleaned.data.contains ';' then String.mk (cleaned.data.takeWhile (· ≠ ';'))
      else if cleaned.data.contains '|' then String.mk (cleaned.data.takeWhile (· ≠ '|'))
      else cleaned
    let cleaned :=
      if cleaned.data.getLastD ' ' = 'm' then String.mk cleaned.data.dropLast
      else cleaned
    pyFloatFull cleaned

/-! ### Height resolver (over the full float model) -/

/-- First key of `keys` present in `tags` whose value parses; later keys are
tried when an earlier value is present but unparseable, exactly as the
`for`/`break` loops of `building_height` do. -/
def firstParsedKey (tags : TagMap) : List String → Option PyFloat
  | [] => none
  | k :: rest =>
      match tagGet tags k with
      | none => firstParsedKey tags rest
      | some v =>
          match parse_float_full v with
          | some q => some q
          | none => firstParsedKey tags rest

/-- The `min_height` resolved by `building_height` before the degenerate
correction: first parsed of `min_height`, `building:min_height`, else 0. -/
def resolvedMinHeight (tags : TagMap) : PyFloat :=
  (firstParsedKey tags ["min_height", "building:min_height"]).getD
    (PyFloat.finite (Frac.ofNat 0))

/-- The `height` resolved by `building_height` before the degenerate
correction: first parsed of `height`, `building:height`; otherwise
`building:levels × level_height` when the levels tag parses; otherwise
`default_height`. -/
def resolvedHeight (tags : TagMap) (default_height level_height : PyFloat) : PyFloat :=
  match firstParsedKey tags ["height", "building:height"] with
  | some h => h
  | none =>
      match tagGet tags "building:levels" with
      | some v =>
          match parse_float_full v with
          | some levels => PyFloat.mul levels level_height
          | none => default_height
      | none => default_height

/-- Embedding of `building_height` (osm_to_3dm.py lines 143-177) over the
full float model. -/
def building_height (tags : TagMap) (default_height level_height : PyFloat) :
    PyFloat × PyFloat :=
  if PyFloat.ble (resolvedHeight tags default_height level_height)
      (resolvedMinHeight tags) then
    (PyFloat.add (resolvedMinHeight tags)
      (PyFloat.fmax (PyFloat.mul default_height (PyFloat.finite (mkFrac 1 4)))
        (PyFloat.finite (Frac.ofNat 1))),
     resolvedMinHeight tags)
  else (resolvedHeight tags default_height level_height, resolvedMinHeight tags)

/-! ### Claims C7 and C2 -/

/-- Claim C7: `parse_float` is total over all input strings (it returns an
optional value and never raises), and `parse_float "12.5m" = 12.5`,
`parse_float "10,5" = 10.5`, `parse_float "3;4" = 3.0`,
`parse_float "" = none`, `parse_float "abc" = none`. -/
theorem c7_parse_float_spec :
    (∀ s : String, parse_float s = none ∨ ∃ q, parse_float s = some q) ∧
    (parse_float "12.5m").map Frac.toRat = some ((25 : ℚ) / 2) ∧
    (parse_float "10,5").map Frac.toRat = some ((21 : ℚ) / 2) ∧
    (parse_float "3;4").map Frac.toRat = some ((3 : ℚ)) ∧
    parse_float "" = none ∧
    parse_float "abc" = none := by
  refine ⟨fun s => ?_, ?_, ?_, ?_, by decide, by decide⟩
  · cases h : parse_float s with
    | none => exact Or.inl rfl
    | some q => exact Or.inr ⟨q, rfl⟩
  · rw [show parse_float "12.5m" = some (mkFrac 125 10) from by decide,
      Option.map_some']
    rw [Frac.toRat_mkFrac 125 10 (by norm_num)]
    norm_num
  · rw [show parse_float "10,5" = some (mkFrac 105 10) from by decide,
      Option.map_some']
    rw [Frac.toRat_mkFrac 105 10 (by norm_num)]
    norm_num
  · rw [show parse_float "3;4" = some (Frac.ofNat 3) from by decide,
      Option.map_some']
    rw [Frac.toRat_ofNat]
    norm_num

/-- Counterexample to claim C2 as stated: Python `float("nan")` parses, so
with tags `{height: "nan"}` the source resolves `height = nan`; the
degenerate-height guard `nan <= 0.0` is false, no correction fires, and the
function returns `(nan, 0.0)` — for which `height > min_height` is false,
every comparison against `nan` being false. -/
theorem c2_counterexample :
    building_height [("height", "nan")] (PyFloat.finite (Frac.ofNat 10))
        (PyFloat.finite (Frac.ofNat 3))
      = (PyFloat.nan, PyFloat.finite (Frac.ofNat 0)) ∧
    PyFloat.blt (PyFloat.finite (Frac.ofNat 0)) PyFloat.nan = false := by
  decide

/-- Claim C2, amended: `building_height` is total (it never raises), and
whenever the resolved height, the resolved min-height and the default
height are finite numbers — i.e. no `inf`/`nan` arises from the tag values
or the policy parameters — it returns a pair with height strictly greater
than min-height, forcing `height = min_height + max(default_height × 0.25,
1.0)` exactly when the resolved height is at most the resolved min-height;
in particular tags `{min_height: "5", height: "5"}` with default height 10
yield `(7.5, 5.0)`.  With special values the strict inequality can fail
(see the counterexample). -/
theorem c2_building_height_finite (tags : TagMap) (d l h m : Frac)
    (hh : resolvedHeight tags (PyFloat.finite d) (PyFloat.finite l) = PyFloat.finite h)
    (hm : resolvedMinHeight tags = PyFloat.finite m) :
    (∃ hq mq : Frac,
        building_height tags (PyFloat.finite d) (PyFloat.finite l)
          = (PyFloat.finite hq, PyFloat.finite mq) ∧ mq.toRat < hq.toRat) ∧
    (h.toRat ≤ m.toRat →
      building_height tags (PyFloat.finite d) (PyFloat.finite l)
        = (PyFloat.finite (m + Frac.fmax (d * mkFrac 1 4) (Frac.ofNat 1)),
           PyFloat.finite m)) ∧
    (∃ hq mq : Frac,
        building_height [("min_height", "5"), ("height", "5")]
            (PyFloat.finite (Frac.ofNat 10)) (PyFloat.finite (Frac.ofNat 3))
          = (PyFloat.finite hq, PyFloat.finite mq) ∧
        hq.toRat = (15 : ℚ) / 2 ∧ mq.toRat = 5) := by
  have hcorr : Frac.ble h m = true →
      building_height tags (PyFloat.finite d) (PyFloat.finite l)
        = (PyFloat.finite (m + Frac.fmax (d * mkFrac 1 4) (Frac.ofNat 1)),
           PyFloat.finite m) := by
    intro hb
    unfold building_height
    rw [hh, hm, PyFloat.ble_finite, if_pos hb, PyFloat.mul_finite,
      PyFloat.fmax_finite, PyFloat.add_finite]
  refine ⟨?_, ?_, ?_⟩
  · by_cases hb : Frac.ble h m = true
    · refine ⟨m + Frac.fmax (d * mkFrac 1 4) (Frac.ofNat 1), m, hcorr hb, ?_⟩
      rw [Frac.toRat_add, Frac.toRat_fmax, Frac.toRat_ofNat]
      have h1 : (1 : ℚ) ≤ max ((d * mkFrac 1 4).toRat) ((1 : ℕ) : ℚ) := by
        push_cast
        exact le_max_right _ _
      push_cast at h1 ⊢
      linarith
    · refine ⟨h, m, ?_, ?_⟩
      · unfold building_height
        rw [hh, hm, PyFloat.ble_finite, if_neg hb]
      · have : ¬ h.toRat ≤ m.toRat := fun hc => hb ((Frac.ble_iff _ _).mpr hc)
        exact not_le.mp this
  · intro hle
    exact hcorr ((Frac.ble_iff _ _).mpr hle)
  · refine ⟨mkFrac 30 4, Frac.ofNat 5, by decide, ?_, ?_⟩
    · rw [Frac.toRat_mkFrac 30 4 (by norm_num)]
      norm_num
    · rw [Frac.toRat_ofNat]
      norm_num

/-- Witness for amended C2: at the concrete input of the claim the resolved
values are the finite number 5, the degenerate correction fires, and the
corrected pair is produced. -/
theorem c2_building_height_finite_witness :
    building_height [("min_height", "5"), ("height", "5")]
        (PyFloat.finite (Frac.ofNat 10)) (PyFloat.finite (Frac.ofNat 3))
      = (PyFloat.finite (Frac.ofNat 5 +
            Frac.fmax (Frac.ofNat 10 * mkFrac 1 4) (Frac.ofNat 1)),
         PyFloat.finite (Frac.ofNat 5)) :=
  (c2_building_height_finite [("min_height", "5"), ("height", "5")]
      (Frac.ofNat 10) (Frac.ofNat 3) (Frac.ofNat 5) (Frac.ofNat 5)
      (by decide) (by decide)).2.1 (le_refl _)

/-! ### Ring assembler (`assemble_rings`, osm_to_3dm.py lines 197-241)

The inner `for` scan over the pool: find the first fragment matching one of
the four endpoint cases, return the extended ring and the pool with that
fragment consumed; skipped fragments stay in place. -/

def joinStep (ring : List Nat) : List (List Nat) → Option (List Nat × List (List Nat))
  | [] => none
  | candidate :: rest =>
      if candidate = [] then
        match joinStep ring rest with
        | some (r, p) => some (r, candidate :: p)
        | none => none
      else if candidate.headD 0 = ring.getLastD 0 then
        some (ring ++ candidate.drop 1, rest)
      else if candidate.getLastD 0 = ring.getLastD 0 then
        some (ring ++ candidate.dropLast.reverse, rest)
      else if candidate.getLastD 0 = ring.headD 0 then
        some (candidate.dropLast ++ ring, rest)
      else if candidate.headD 0 = ring.headD 0 then
        some ((candidate.drop 1).reverse ++ ring, rest)
      else
        match joinStep ring rest with
        | some (r, p) => some (r, candidate :: p)
        | none => none

/-- The inner `while ring[0] != ring[-1] and unused` loop.  The fuel starts
at the pool size; every successful scan removes one fragment from the pool,
so the fuel cannot run out before the pool does. -/
def extendLoop : Nat → List Nat → List (List Nat) → List Nat × List (List Nat)
  | 0, ring, pool => (ring, pool)
  | fuel + 1, ring, pool =>
      if ring.headD 0 = ring.getLastD 0 then (ring, pool)
      else if pool = [] then (ring, pool)
      else
        match joinStep ring pool with
        | some (r, p) => extendLoop fuel r p
        | none => (ring, pool)

def extendRing (ring : List Nat) (pool : List (List Nat)) : List Nat × List (List Nat) :=
  extendLoop pool.length ring pool

/-- The outer `while unused` loop: pop the last fragment, extend it as far
as possible, force-close it if still open, and continue with the rest. -/
def assembleLoop : Nat → List (List Nat) → List (List Nat)
  | 0, _ => []
  | fuel + 1, pool =>
      match pool.getLast? with
      | none => []
      | some current =>
          if current = [] then assembleLoop fuel pool.dropLast
          else if (extendRing current pool.dropLast).1.headD 0
              = (extendRing current pool.dropLast).1.getLastD 0 then
            (extendRing current pool.dropLast).1 ::
              assembleLoop fuel (extendRing current pool.dropLast).2
          else
            ((extendRing current pool.dropLast).1 ++
                [(extendRing current pool.dropLast).1.headD 0]) ::
              assembleLoop fuel (extendRing current pool.dropLast).2

/-- Embedding of `assemble_rings`: fragments shorter than 2 ids are dropped,
then rings are stitched greedily. -/
def assemble_rings (node_sequences : List (List Nat)) : List (List Nat) :=
  let unused := node_sequences.filter (fun s => 2 ≤ s.length)
  assembleLoop unused.length unused

/-- The eight variants of the fragment collection `[[1,2,3],[3,4,1]]` under
permutation of the two fragments and reversal of either fragment. -/
def fragmentVariants : List (List (List Nat)) :=
  [[[1, 2, 3], [3, 4, 1]], [[3, 4, 1], [1, 2, 3]],
   [[3, 2, 1], [3, 4, 1]], [[3, 4, 1], [3, 2, 1]],
   [[1, 2, 3], [1, 4, 3]], [[1, 4, 3], [1, 2, 3]],
   [[3, 2, 1], [1, 4, 3]], [[1, 4, 3], [3, 2, 1]]]

/-- Closed 5-id rings that traverse the cycle 1-2-3-4: all rotations of
`[1,2,3,4,1]` and of its reversal. -/
def isCycle1234 (r : List Nat) : Bool :=
  [[1, 2, 3, 4, 1], [2, 3, 4, 1, 2], [3, 4, 1, 2, 3], [4, 1, 2, 3, 4],
   [1, 4, 3, 2, 1], [4, 3, 2, 1, 4], [3, 2, 1, 4, 3], [2, 1, 4, 3, 2]].contains r

def singleCycleRing (input : List (List Nat)) : Bool :=
  match assemble_rings input with
  | [r] => isCycle1234 r
  | _ => false

/-- Counterexample to claim C1: on the input `[[1,2,3],[3,4,1]]` as written,
`assemble_rings` does not return `[1,2,3,4,1]` (it returns the rotated
representative `[3,4,1,2,3]`, because the loop starts from the *last*
fragment of the pool), and the result is not invariant under permutation of
the input fragments. -/
theorem c1_counterexample :
    assemble_rings [[1, 2, 3], [3, 4, 1]] ≠ [[1, 2, 3, 4, 1]] ∧
    assemble_rings [[1, 2, 3], [3, 4, 1]] = [[3, 4, 1, 2, 3]] ∧
    assemble_rings [[3, 4, 1], [1, 2, 3]] = [[1, 2, 3, 4, 1]] ∧
    assemble_rings [[3, 4, 1], [1, 2, 3]] ≠ assemble_rings [[1, 2, 3], [3, 4, 1]] := by
  decide

/-- Claim C1, amended: for the fragment collection `[[1,2,3],[3,4,1]]` and
every variant of it under permutation of the fragments and reversal of
either fragment, `assemble_rings` returns a single closed ring traversing
the cycle 1-2-3-4, i.e. equal to `[1,2,3,4,1]` up to starting point and
direction; the concrete representative depends on the input order and the
fragment orientations. -/
theorem c1_assemble_rings_cycle :
    fragmentVariants.all singleCycleRing = true := by
  decide

/-! ### Features, node resolution and the feature extractors -/

/-- A geographic point `(lat, lon)`. -/
abbrev Pt := Frac × Frac

abbrev NodeMap := List (Nat × Pt)

abbrev WayMap := List (Nat × (List Nat × TagMap))

/-- A relation member `(type, ref, role)`. -/
abbrev Member := String × Nat × String

abbrev RelMap := List (Nat × (List Member × TagMap))

def nodeGet (nodes : NodeMap) (n : Nat) : Option Pt :=
  match nodes.find? (fun p => p.1 = n) with
  | some p => some p.2
  | none => none

def wayGet (ways : WayMap) (w : Nat) : Option (List Nat × TagMap) :=
  match ways.find? (fun p => p.1 = w) with
  | some p => some p.2
  | none => none

/-- One extrudable footprint, as in the `Feature` dataclass. -/
structure Feature where
  osm_id : String
  outer : List Pt
  holes : List (List Pt)
  tags : TagMap
deriving DecidableEq

/-- Python `[nodes[nid] for nid in node_refs]` with `KeyError` caught:
resolves every id or fails as a whole. -/
def resolveAll (nodes : NodeMap) : List Nat → Option (List Pt)
  | [] => some []
  | n :: rest =>
      match nodeGet nodes n with
      | none => none
      | some p =>
          match resolveAll nodes rest with
          | none => none
          | some ps => some (p :: ps)

/-- Embedding of `extract_way_feature` (osm_to_3dm.py lines 180-194). -/
def extract_way_feature (way_id : Nat) (nodes : NodeMap) (node_refs : List Nat)
    (tags : TagMap) : Option Feature :=
  if node_refs.length < 4 then none
  else if node_refs.headD 0 ≠ node_refs.getLastD 0 then none
  else
    match resolveAll nodes node_refs with
    | none => none
    | some ring => some ⟨"way/" ++ toString way_id, ring, [], tags⟩

/-! ### Containment classifier (nested helpers of `extract_relation_features`) -/

def fracSum (xs : List Frac) : Frac := xs.foldl Frac.add (Frac.ofNat 0)

/-- Embedding of the nested `ring_centroid`: arithmetic mean of the ring's
points, `(0, 0)` for an empty ring. -/
def ring_centroid (ring : List Pt) : Pt :=
  if ring = [] then (Frac.ofNat 0, Frac.ofNat 0)
  else
    (Frac.div (fracSum (ring.map Prod.fst)) (Frac.ofNat ring.length),
     Frac.div (fracSum (ring.map Prod.snd)) (Frac.ofNat ring.length))

/-- The effective edge denominator of the ray-casting test:
`(y2 - y1) or 1e-12` in Python, i.e. the constant `1e-12` whenever
`y2 - y1` equals zero. -/
def edgeDenominator (y1 y2 : Frac) : Frac :=
  if Frac.beq (y2 - y1) (Frac.ofNat 0) then mkFrac 1 (10 ^ 12) else y2 - y1

/-- One edge test of the ray-casting loop:
`((y1 > py) != (y2 > py)) and (px < (x2-x1)*(py-y1)/((y2-y1) or 1e-12) + x1)`. -/
def edgeCross (px py : Frac) (p1 p2 : Pt) : Bool :=
  let y1 := p1.1
  let x1 := p1.2
  let y2 := p2.1
  let x2 := p2.2
  (Frac.blt py y1 ≠ Frac.blt py y2 : Bool) &&
    Frac.blt px ((((x2 - x1) * (py - y1)).div (edgeDenominator y1 y2)) + x1)

/-- Embedding of the nested `ring_contains_point`: even-odd ray casting over
consecutive edges `zip(ring, ring[1:])`. -/
def ring_contains_point (ring : List Pt) (point : Pt) : Bool :=
  (ring.zip (ring.drop 1)).foldl
    (fun inside e => if edgeCross point.2 point.1 e.1 e.2 then !inside else inside)
    false

/-- The hole-assignment loop of `extract_relation_features`: for each outer
ring in order, split the still-unassigned inner rings by the centroid
containment test; returns the per-outer assignments and the final leftover
pool. -/
def assignHoles : List (List Pt) → List (List Pt) →
    List ((List Pt) × List (List Pt)) × List (List Pt)
  | [], inners => ([], inners)
  | o :: os, inners =>
      ((o, inners.filter (fun r => ring_contains_point o (ring_centroid r))) ::
          (assignHoles os
            (inners.filter (fun r => !(ring_contains_point o (ring_centroid r))))).1,
        (assignHoles os
          (inners.filter (fun r => !(ring_contains_point o (ring_centroid r))))).2)

/-! ### Relation member grouping and relation features -/

def lowerStr (s : String) : String := String.mk (s.data.map lowerChar)

/-- Role normalisation of `extract_relation_features`: an empty role
defaults to `outer` before lowercasing; `outline`/`exterior`/`shell` map to
`outer`; `interior`/`hole` map to `inner`; anything else passes through
unchanged (and is then skipped by the grouping). -/
def normalizeRole (role : String) : String :=
  let r := lowerStr (if role = "" then "outer" else role)
  if r = "outline" || r = "exterior" || r = "shell" then "outer"
  else if r = "interior" || r = "hole" then "inner"
  else r

def isPrefixChars : List Char → List Char → Bool
  | [], _ => true
  | _ :: _, [] => false
  | a :: as, b :: bs => a = b && isPrefixChars as bs

def strStartsWith (s pre : String) : Bool := isPrefixChars pre.data s.data

/-- Keys merged from a building member way into the relation's tags. -/
def buildingTagKey (kv : String × String) : Bool :=
  strStartsWith kv.1 "building" || kv.1 = "height" || kv.1 = "min_height"

/-- Python `dict` update of one key: overwrite in place or append. -/
def updateTag : TagMap → String → String → TagMap
  | [], k, v => [(k, v)]
  | (k', v') :: rest, k, v =>
      if k' = k then (k', v) :: rest else (k', v') :: updateTag rest k v

def updateTags (m : TagMap) (upd : TagMap) : TagMap :=
  upd.foldl (fun acc kv => updateTag acc kv.1 kv.2) m

/-- Accumulator of the member loop: the `way_roles` dict and `outer_tags`. -/
structure MemberAcc where
  outers : List (List Nat)
  inners : List (List Nat)
  outer_tags : TagMap

/-- The tag-merge step after a member way joins a group: while the
accumulated tags carry no building key and the member way does, the way's
building-prefixed / height keys are merged into the accumulated tags.  The
grouping fields are never touched. -/
def mergeBuildingTags (acc : MemberAcc) (way_tags : TagMap) : MemberAcc :=
  if !(is_building acc.outer_tags) && is_building way_tags then
    { acc with outer_tags := updateTags acc.outer_tags (way_tags.filter buildingTagKey) }
  else acc

/-- One iteration of the member loop of `extract_relation_features`:
non-way members and unresolvable ways are skipped; the role is normalised;
members with a role other than `outer`/`inner` are skipped; otherwise the
way's node ids join the group, and building tags of the first building
member way are merged while the accumulated tags carry no building key. -/
def memberFold (ways : WayMap) (acc : MemberAcc) (m : Member) : MemberAcc :=
  if m.1 ≠ "way" then acc
  else
    match wayGet ways m.2.1 with
    | none => acc
    | some wdata =>
        if normalizeRole m.2.2 = "outer" ∨ normalizeRole m.2.2 = "inner" then
          mergeBuildingTags
            (if normalizeRole m.2.2 = "outer" then
              { acc with outers := acc.outers ++ [wdata.1] }
            else { acc with inners := acc.inners ++ [wdata.1] })
            wdata.2
        else acc

/-- Embedding of `extract_relation_features` (osm_to_3dm.py lines 244-349). -/
def extract_relation_features (relation_id : Nat) (nodes : NodeMap) (ways : WayMap)
    (members : List Member) (tags : TagMap) : List Feature :=
  let acc := members.foldl (memberFold ways) ⟨[], [], tags⟩
  if acc.outers = [] then []
  else
    let outer_rings := (assemble_rings acc.outers).filterMap (resolveAll nodes)
    if outer_rings = [] then []
    else
      let inner_rings := (assemble_rings acc.inners).filterMap (resolveAll nodes)
      (assignHoles outer_rings inner_rings).1.map
        (fun p => ⟨"relation/" ++ toString relation_id, p.1, p.2, acc.outer_tags⟩)

/-! ### Pipeline-level feature collection (`collect_features`, lines 352-392) -/

/-- A relation's `type` tag is `multipolygon` or `building`. -/
def typeOk (tags : TagMap) : Bool :=
  tagGet tags "type" = some "multipolygon" || tagGet tags "type" = some "building"

/-- `any(member_type == "way" and is_building(ways.get(ref, ([], {}))[1]) ...)`. -/
def membersHaveBuilding (ways : WayMap) (members : List Member) : Bool :=
  members.any (fun m =>
    m.1 = "way" &&
      (match wayGet ways m.2.1 with
       | some wdata => is_building wdata.2
       | none => false))

/-- One iteration of the first loop of `collect_features`: relations of an
accepted type that carry building semantics (their own tags or a member
way's) contribute all their way-member refs. -/
def relationWayIdsStep (ways : WayMap) (acc : List Nat)
    (rel : Nat × (List Member × TagMap)) : List Nat :=
  if typeOk rel.2.2 then
    if is_building rel.2.2 || membersHaveBuilding ways rel.2.1 then
      acc ++ rel.2.1.filterMap (fun m => if m.1 = "way" then some m.2.1 else none)
    else acc
  else acc

/-- The set `relation_way_ids` built by the first loop of `collect_features`. -/
def relationWayIds (ways : WayMap) (relations : RelMap) : List Nat :=
  relations.foldl (relationWayIdsStep ways) []

/-- The `relation_candidates` list of the first loop: relations whose `type`
tag is accepted, in input order. -/
def relationCandidates (relations : RelMap) : RelMap :=
  relations.filter (fun rel => typeOk rel.2.2)

/-- The per-way branch of the second loop of `collect_features`:
skip non-building ways; skip ways referenced by a qualifying relation unless
tagged `building:part`; otherwise extract the simple way feature. -/
def standaloneWayFeature (nodes : NodeMap) (rel_ids : List Nat)
    (w : Nat × (List Nat × TagMap)) : Option Feature :=
  if !(is_building w.2.2) then none
  else if rel_ids.contains w.1 && (tagGet w.2.2 "building:part").isNone then none
  else extract_way_feature w.1 nodes w.2.1 w.2.2

/-- The third loop of `collect_features`: relation candidates that carry
building semantics contribute their relation features, in order. -/
def relationPart (nodes : NodeMap) (ways : WayMap) (cands : RelMap) : List Feature :=
  cands.foldl
    (fun acc rel =>
      if !(is_building rel.2.2) && !(membersHaveBuilding ways rel.2.1) then acc
      else acc ++ extract_relation_features rel.1 nodes ways rel.2.1 rel.2.2)
    []

/-- Embedding of `collect_features`: way features first, then relation
features. -/
def collect_features (nodes : NodeMap) (ways : WayMap) (relations : RelMap) :
    List Feature :=
  ways.filterMap (standaloneWayFeature nodes (relationWayIds ways relations)) ++
    relationPart nodes ways (relationCandidates relations)

/-! ### Structural lemmas for node resolution and assembled rings -/

theorem resolveAll_length (nodes : NodeMap) :
    ∀ {l : List Nat} {r : List Pt}, resolveAll nodes l = some r → r.length = l.length := by
  intro l
  induction l with
  | nil =>
      intro r h
      simp only [resolveAll, Option.some.injEq] at h
      subst h
      rfl
  | cons n rest ih =>
      intro r h
      simp only [resolveAll] at h
      cases hn : nodeGet nodes n with
      | none => rw [hn] at h; exact absurd h (by simp)
      | some p =>
          rw [hn] at h
          cases hr : resolveAll nodes rest with
          | none => rw [hr] at h; exact absurd h (by simp)
          | some ps =>
              rw [hr] at h
              simp only [Option.some.injEq] at h
              subst h
              simp [ih hr]

theorem resolveAll_ne_nil (nodes : NodeMap) {l : List Nat} {r : List Pt}
    (h : resolveAll nodes l = some r) (hl : l ≠ []) : r ≠ [] := by
  intro e
  apply hl
  have := resolveAll_length nodes h
  rw [e] at this
  exact List.length_eq_zero.mp this.symm

theorem resolveAll_head (nodes : NodeMap) :
    ∀ {l : List Nat} {r : List Pt}, resolveAll nodes l = some r →
      r.head? = l.head?.bind (nodeGet nodes) := by
  intro l r h
  cases l with
  | nil =>
      simp only [resolveAll, Option.some.injEq] at h
      subst h
      rfl
  | cons n rest =>
      simp only [resolveAll] at h
      cases hn : nodeGet nodes n with
      | none => rw [hn] at h; exact absurd h (by simp)
      | some p =>
          rw [hn] at h
          cases hr : resolveAll nodes rest with
          | none => rw [hr] at h; exact absurd h (by simp)
          | some ps =>
              rw [hr] at h
              simp only [Option.some.injEq] at h
              subst h
              simp [hn]

theorem resolveAll_getLast (nodes : NodeMap) :
    ∀ {l : List Nat} {r : List Pt}, resolveAll nodes l = some r →
      r.getLast? = l.getLast?.bind (nodeGet nodes) := by
  intro l
  induction l with
  | nil =>
      intro r h
      simp only [resolveAll, Option.some.injEq] at h
      subst h
      rfl
  | cons n rest ih =>
      intro r h
      simp only [resolveAll] at h
      cases hn : nodeGet nodes n with
      | none => rw [hn] at h; exact absurd h (by simp)
      | some p =>
          rw [hn] at h
          cases hr : resolveAll nodes rest with
          | none => rw [hr] at h; exact absurd h (by simp)
          | some ps =>
              rw [hr] at h
              simp only [Option.some.injEq] at h
              subst h
              cases rest with
              | nil =>
                  simp only [resolveAll, Option.some.injEq] at hr
                  subst hr
                  simp [hn]
              | cons m rest2 =>
                  have hps : ps ≠ [] :=
                    resolveAll_ne_nil nodes hr (by simp)
                  obtain ⟨q, qs, rfl⟩ := List.exists_cons_of_ne_nil hps
                  rw [List.getLast?_cons_cons, List.getLast?_cons_cons]
                  exact ih hr

/-- A non-empty list whose `headD`/`getLastD` agree has `head? = getLast?`. -/
theorem head_eq_getLast_of_headD {α : Type _} {l : List α} {d : α} (hne : l ≠ [])
    (h : l.headD d = l.getLastD d) : l.head? = l.getLast? := by
  obtain ⟨a, as, rfl⟩ := List.exists_cons_of_ne_nil hne
  have h1 : (a :: as).getLast? = some ((a :: as).getLast (by simp)) :=
    List.getLast?_eq_getLast _ _
  rw [List.getLastD_eq_getLast?, h1] at h
  simp only [List.headD_cons, Option.getD_some] at h
  rw [List.head?_cons, h1]
  exact congrArg some h

theorem joinStep_ne_nil {ring : List Nat} :
    ∀ {pool : List (List Nat)} {r : List Nat} {p : List (List Nat)},
      joinStep ring pool = some (r, p) → ring ≠ [] → r ≠ [] := by
  intro pool
  induction pool with
  | nil => intro r p h; simp [joinStep] at h
  | cons c rest ih =>
      intro r p h hne
      unfold joinStep at h
      by_cases hc : c = []
      · rw [if_pos hc] at h
        cases hj : joinStep ring rest with
        | none => rw [hj] at h; exact absurd h (by simp)
        | some rp =>
            rw [hj] at h
            cases rp with
            | mk r2 p2 =>
                simp only [Option.some.injEq, Prod.mk.injEq] at h
                rw [← h.1]
                exact ih hj hne
      · rw [if_neg hc] at h
        split_ifs at h with h1 h2 h3 h4
        · simp only [Option.some.injEq, Prod.mk.injEq] at h
          rw [← h.1]
          intro e
          exact hne (List.append_eq_nil.mp e).1
        · simp only [Option.some.injEq, Prod.mk.injEq] at h
          rw [← h.1]
          intro e
          exact hne (List.append_eq_nil.mp e).1
        · simp only [Option.some.injEq, Prod.mk.injEq] at h
          rw [← h.1]
          intro e
          exact hne (List.append_eq_nil.mp e).2
        · simp only [Option.some.injEq, Prod.mk.injEq] at h
          rw [← h.1]
          intro e
          exact hne (List.append_eq_nil.mp e).2
        · cases hj : joinStep ring rest with
          | none => rw [hj] at h; exact absurd h (by simp)
          | some rp =>
              rw [hj] at h
              cases rp with
              | mk r2 p2 =>
                  simp only [Option.some.injEq, Prod.mk.injEq] at h
                  rw [← h.1]
                  exact ih hj hne

theorem extendLoop_ne_nil :
    ∀ (fuel : Nat) {ring : List Nat} {pool : List (List Nat)},
      ring ≠ [] → (extendLoop fuel ring pool).1 ≠ [] := by
  intro fuel
  induction fuel with
  | zero => intro ring pool h; exact h
  | succ n ih =>
      intro ring pool h
      unfold extendLoop
      by_cases h1 : ring.headD 0 = ring.getLastD 0
      · rw [if_pos h1]; exact h
      · rw [if_neg h1]
        by_cases h2 : pool = []
        · rw [if_pos h2]; exact h
        · rw [if_neg h2]
          cases hj : joinStep ring pool with
          | none => exact h
          | some rp =>
              cases rp with
              | mk r2 p2 => exact ih (joinStep_ne_nil hj h)

theorem assembleLoop_closed :
    ∀ (fuel : Nat) {pool : List (List Nat)} {r : List Nat},
      r ∈ assembleLoop fuel pool → r ≠ [] ∧ r.headD 0 = r.getLastD 0 := by
  intro fuel
  induction fuel with
  | zero => intro pool r h; simp [assembleLoop] at h
  | succ n ih =>
      intro pool r h
      unfold assembleLoop at h
      split at h
      · simp at h
      · rename_i current heq
        by_cases hc : current = []
        · rw [if_pos hc] at h
          exact ih h
        · rw [if_neg hc] at h
          have hrne : ((extendRing current pool.dropLast).1 : List Nat) ≠ [] :=
            extendLoop_ne_nil _ hc
          by_cases hcl : (extendRing current pool.dropLast).1.headD 0
              = (extendRing current pool.dropLast).1.getLastD 0
          · rw [if_pos hcl] at h
            simp only [List.mem_cons] at h
            rcases h with hr | hr
            · subst hr
              exact ⟨hrne, hcl⟩
            · exact ih hr
          · rw [if_neg hcl] at h
            simp only [List.mem_cons] at h
            rcases h with hr | hr
            · subst hr
              obtain ⟨a, as, ha⟩ := List.exists_cons_of_ne_nil hrne
              refine ⟨by simp, ?_⟩
              rw [ha]
              rw [List.getLastD_eq_getLast?, List.getLast?_concat]
              simp
            · exact ih hr

/-! ### Properties of the hole-assignment loop -/

theorem assignHoles_mem_outer :
    ∀ {outers inners : List (List Pt)} {o : List Pt} {hs : List (List Pt)},
      (o, hs) ∈ (assignHoles outers inners).1 → o ∈ outers := by
  intro outers
  induction outers with
  | nil => intro inners o hs h; simp [assignHoles] at h
  | cons a os ih =>
      intro inners o hs h
      simp only [assignHoles, List.mem_cons, Prod.mk.injEq] at h
      rcases h with ⟨h1, _⟩ | h1
      · exact List.mem_cons.mpr (Or.inl h1)
      · exact List.mem_cons.mpr (Or.inr (ih h1))

theorem assignHoles_assigned_inside :
    ∀ {outers inners : List (List Pt)} {o : List Pt} {hs : List (List Pt)},
      (o, hs) ∈ (assignHoles outers inners).1 →
      ∀ r ∈ hs, ring_contains_point o (ring_centroid r) = true := by
  intro outers
  induction outers with
  | nil => intro inners o hs h; simp [assignHoles] at h
  | cons a os ih =>
      intro inners o hs h r hr
      simp only [assignHoles, List.mem_cons, Prod.mk.injEq] at h
      rcases h with ⟨h1, h2⟩ | h1
      · subst h1
        rw [h2] at hr
        exact (List.mem_filter.mp hr).2
      · exact ih h1 r hr

theorem assignHoles_left_mem :
    ∀ {outers inners : List (List Pt)} {r : List Pt}, r ∈ inners →
      (∀ o ∈ outers, ring_contains_point o (ring_centroid r) = false) →
      r ∈ (assignHoles outers inners).2 := by
  intro outers
  induction outers with
  | nil => intro inners r h _; simpa [assignHoles] using h
  | cons a os ih =>
      intro inners r h hout
      simp only [assignHoles]
      refine ih (List.mem_filter.mpr ⟨h, ?_⟩) ?_
      · rw [hout a (List.mem_cons_self a os)]
        rfl
      · intro o ho
        exact hout o (List.mem_cons.mpr (Or.inr ho))

theorem assignHoles_perm :
    ∀ (outers inners : List (List Pt)),
      (((assignHoles outers inners).1.map Prod.snd).join
          ++ (assignHoles outers inners).2).Perm inners := by
  intro outers
  induction outers with
  | nil => intro inners; simp [assignHoles]
  | cons a os ih =>
      intro inners
      simp only [assignHoles, List.map_cons, List.join_cons]
      rw [List.append_assoc]
      exact ((ih _).append_left _).trans (List.filter_append_perm _ inners)

/-- The first outer ring of the pool, in pool order, whose even-odd test
contains the centroid of `r`: the outer ring that the sequential assignment
loop hands `r` to. -/
def firstContainingOuter (outers : List (List Pt)) (r : List Pt) : Option (List Pt) :=
  outers.find? (fun o => ring_contains_point o (ring_centroid r))

theorem assignHoles_complete :
    ∀ {outers inners : List (List Pt)} {r o : List Pt}, r ∈ inners →
      firstContainingOuter outers r = some o →
      ∃ hs, (o, hs) ∈ (assignHoles outers inners).1 ∧ r ∈ hs := by
  intro outers
  induction outers with
  | nil =>
      intro inners r o _ hf
      simp [firstContainingOuter] at hf
  | cons a os ih =>
      intro inners r o hr hf
      unfold firstContainingOuter at hf
      by_cases ha : ring_contains_point a (ring_centroid r) = true
      · have hfind : List.find? (fun o => ring_contains_point o (ring_centroid r)) (a :: os)
            = some a := List.find?_cons_of_pos os ha
        rw [hfind] at hf
        simp only [Option.some.injEq] at hf
        subst hf
        refine ⟨inners.filter (fun s => ring_contains_point a (ring_centroid s)), ?_, ?_⟩
        · exact List.mem_cons_self _ _
        · exact List.mem_filter.mpr ⟨hr, ha⟩
      · have hfind : List.find? (fun o => ring_contains_point o (ring_centroid r)) (a :: os)
            = List.find? (fun o => ring_contains_point o (ring_centroid r)) os :=
          List.find?_cons_of_neg os (by simpa using ha)
        rw [hfind] at hf
        have hfalse : ring_contains_point a (ring_centroid r) = false :=
          Bool.eq_false_iff.mpr ha
        have hmemf : r ∈ inners.filter (fun s => !(ring_contains_point a (ring_centroid s))) :=
          List.mem_filter.mpr ⟨hr, by simp [hfalse]⟩
        obtain ⟨hs, hmem, hin⟩ := ih hmemf hf
        exact ⟨hs, List.mem_cons_of_mem _ hmem, hin⟩

/-! ### Claims C3 and C4 -/

/-- Claim C3, amended: every Feature built by the simple closed-way path has
an outer ring of at least 4 points whose first point equals its last point
(distinctness of the interior points is not checked); Features built by the
relation path always have a closed outer ring (first = last) but can have
fewer than 4 points, and such degenerate Features are only discarded later,
at the geometry-emission boundary, not before construction. -/
theorem c3_outer_ring_invariant :
    (∀ (way_id : Nat) (nodes : NodeMap) (node_refs : List Nat) (tags : TagMap)
        (f : Feature),
        extract_way_feature way_id nodes node_refs tags = some f →
        4 ≤ f.outer.length ∧ f.outer.head? = f.outer.getLast?) ∧
    (∀ (relation_id : Nat) (nodes : NodeMap) (ways : WayMap)
        (members : List Member) (tags : TagMap) (f : Feature),
        f ∈ extract_relation_features relation_id nodes ways members tags →
        f.outer.head? = f.outer.getLast?) := by
  constructor
  · intro way_id nodes node_refs tags f h
    unfold extract_way_feature at h
    by_cases h4 : node_refs.length < 4
    · rw [if_pos h4] at h
      exact absurd h (by simp)
    · rw [if_neg h4] at h
      by_cases hcl : node_refs.headD 0 ≠ node_refs.getLastD 0
      · rw [if_pos hcl] at h
        exact absurd h (by simp)
      · rw [if_neg hcl] at h
        cases hr : resolveAll nodes node_refs with
        | none => rw [hr] at h; exact absurd h (by simp)
        | some ring =>
            rw [hr] at h
            simp only [Option.some.injEq] at h
            subst h
            constructor
            · show 4 ≤ ring.length
              rw [resolveAll_length nodes hr]
              omega
            · show ring.head? = ring.getLast?
              have hne : node_refs ≠ [] := by
                intro e
                rw [e] at h4
                simp at h4
              rw [resolveAll_head nodes hr, resolveAll_getLast nodes hr,
                head_eq_getLast_of_headD hne (not_ne_iff.mp hcl)]
  · intro relation_id nodes ways members tags f h
    simp only [extract_relation_features] at h
    split at h
    · simp at h
    · split at h
      · simp at h
      · obtain ⟨p, hp, hf⟩ := List.mem_map.mp h
        subst hf
        show p.1.head? = p.1.getLast?
        have hout := assignHoles_mem_outer (by
          simpa using hp)
        obtain ⟨ids, hids, hres⟩ := List.mem_filterMap.mp hout
        simp only [assemble_rings] at hids
        obtain ⟨hne, hclosed⟩ := assembleLoop_closed _ hids
        rw [resolveAll_head nodes hres, resolveAll_getLast nodes hres,
          head_eq_getLast_of_headD hne hclosed]

/-- Witness for the way-path half of amended C3, at a concrete closed
4-node way. -/
theorem c3_outer_ring_invariant_witness :
    4 ≤ (Feature.mk "way/5"
          [(Frac.ofNat 0, Frac.ofNat 0), (Frac.ofNat 0, Frac.ofNat 1),
           (Frac.ofNat 1, Frac.ofNat 0), (Frac.ofNat 0, Frac.ofNat 0)] []
          [("building", "yes")]).outer.length ∧
    (Feature.mk "way/5"
        [(Frac.ofNat 0, Frac.ofNat 0), (Frac.ofNat 0, Frac.ofNat 1),
         (Frac.ofNat 1, Frac.ofNat 0), (Frac.ofNat 0, Frac.ofNat 0)] []
        [("building", "yes")]).outer.head? =
      (Feature.mk "way/5"
          [(Frac.ofNat 0, Frac.ofNat 0), (Frac.ofNat 0, Frac.ofNat 1),
           (Frac.ofNat 1, Frac.ofNat 0), (Frac.ofNat 0, Frac.ofNat 0)] []
          [("building", "yes")]).outer.getLast? :=
  c3_outer_ring_invariant.1 5
    [(1, (Frac.ofNat 0, Frac.ofNat 0)), (2, (Frac.ofNat 0, Frac.ofNat 1)),
     (3, (Frac.ofNat 1, Frac.ofNat 0))]
    [1, 2, 3, 1] [("building", "yes")] _ (by decide)

/-- Counterexample to claim C3 as stated: a relation with a single outer
member way `[1, 1]` produces a Feature whose outer ring has only 2 points
(fewer than 4), so the degenerate input is *not* discarded before the
Feature is built. -/
theorem c3_counterexample :
    (extract_relation_features 1 [(1, (Frac.ofNat 0, Frac.ofNat 0))]
        [(7, ([1, 1], [("building", "yes")]))]
        [("way", 7, "outer")] [("building", "yes")]).map (fun f => f.outer.length)
      = [2] ∧ ¬ (4 : Nat) ≤ 2 := by
  decide

/-- Claim C4: in relation-feature extraction, for each outer ring in order,
every still-unassigned inner ring whose centroid passes the even-odd
ray-casting test against that outer ring is assigned as a hole of that
outer ring's Feature and removed from the pool before the next outer ring
is tested: an inner ring is assigned to the *first* outer ring (in pool
order) containing its centroid — soundness (every assigned hole passes the
test against its Feature's outer ring), completeness (an inner ring with a
containing outer ring IS assigned to the first such outer ring's Feature),
and at-most-once consumption (the assignments plus the leftover pool are a
permutation of the inner-ring pool) are all proved; an inner ring whose
centroid lies inside no outer ring appears in no Feature's holes (dropped
silently). -/
theorem c4_hole_assignment :
    (∀ (outers inners : List (List Pt)) (o : List Pt) (hs : List (List Pt)),
        (o, hs) ∈ (assignHoles outers inners).1 →
        o ∈ outers ∧ ∀ r ∈ hs, ring_contains_point o (ring_centroid r) = true) ∧
    (∀ (outers inners : List (List Pt)) (r : List Pt), r ∈ inners →
        (∀ o ∈ outers, ring_contains_point o (ring_centroid r) = false) →
        r ∈ (assignHoles outers inners).2 ∧
          ∀ p ∈ (assignHoles outers inners).1, r ∉ p.2) ∧
    (∀ (outers inners : List (List Pt)),
        (((assignHoles outers inners).1.map Prod.snd).join
            ++ (assignHoles outers inners).2).Perm inners) ∧
    (∀ (relation_id : Nat) (nodes : NodeMap) (ways : WayMap)
        (members : List Member) (tags : TagMap) (f : Feature),
        f ∈ extract_relation_features relation_id nodes ways members tags →
        ∀ r ∈ f.holes, ring_contains_point f.outer (ring_centroid r) = true) ∧
    (∀ (outers inners : List (List Pt)) (r o : List Pt), r ∈ inners →
        firstContainingOuter outers r = some o →
        ∃ hs, (o, hs) ∈ (assignHoles outers inners).1 ∧ r ∈ hs) ∧
    (∀ (relation_id : Nat) (nodes : NodeMap) (ways : WayMap)
        (members : List Member) (tags : TagMap) (r o : List Pt),
        r ∈ (assemble_rings (members.foldl (memberFold ways)
              (MemberAcc.mk [] [] tags)).inners).filterMap (resolveAll nodes) →
        firstContainingOuter
            ((assemble_rings (members.foldl (memberFold ways)
              (MemberAcc.mk [] [] tags)).outers).filterMap (resolveAll nodes)) r
          = some o →
        ∃ f ∈ extract_relation_features relation_id nodes ways members tags,
          f.outer = o ∧ r ∈ f.holes) := by
  refine ⟨?_, ?_, assignHoles_perm, ?_, ?_, ?_⟩
  · intro outers inners o hs h
    exact ⟨assignHoles_mem_outer h, assignHoles_assigned_inside h⟩
  · intro outers inners r hr hout
    refine ⟨assignHoles_left_mem hr hout, ?_⟩
    intro p hp hmem
    have h1 := assignHoles_assigned_inside hp r hmem
    have h2 := assignHoles_mem_outer hp
    rw [hout p.1 h2] at h1
    exact Bool.false_ne_true h1
  · intro relation_id nodes ways members tags f h r hr
    simp only [extract_relation_features] at h
    split at h
    · simp at h
    · split at h
      · simp at h
      · obtain ⟨p, hp, hf⟩ := List.mem_map.mp h
        subst hf
        exact assignHoles_assigned_inside (by simpa using hp) r hr
  · intro outers inners r o hr hf
    exact assignHoles_complete hr hf
  · intro relation_id nodes ways members tags r o hr hf
    simp only [extract_relation_features]
    by_cases houters : (members.foldl (memberFold ways)
        (MemberAcc.mk [] [] tags)).outers = []
    · exfalso
      rw [houters] at hf
      rw [show assemble_rings ([] : List (List Nat)) = [] from rfl] at hf
      simp [firstContainingOuter] at hf
    · rw [if_neg houters]
      by_cases hrings : ((assemble_rings (members.foldl (memberFold ways)
          (MemberAcc.mk [] [] tags)).outers).filterMap (resolveAll nodes)) = []
      · exfalso
        rw [hrings] at hf
        simp [firstContainingOuter] at hf
      · rw [if_neg hrings]
        obtain ⟨hs, hmem, hin⟩ := assignHoles_complete hr hf
        exact ⟨_, List.mem_map.mpr ⟨(o, hs), hmem, rfl⟩, rfl, hin⟩

/-! ### Claim C5: role normalisation and member grouping -/

/-- The contribution of one relation member to the group named `grp`
(`"outer"` or `"inner"`): its way's node ids when the member is a resolvable
way whose normalised role equals `grp`, nothing otherwise. -/
def memberRefs (ways : WayMap) (grp : String) (m : Member) : Option (List Nat) :=
  if m.1 = "way" then
    match wayGet ways m.2.1 with
    | some wdata => if normalizeRole m.2.2 = grp then some wdata.1 else none
    | none => none
  else none

theorem memberFold_outers (ways : WayMap) (acc : MemberAcc) (m : Member) :
    (memberFold ways acc m).outers =
      match memberRefs ways "outer" m with
      | some refs => acc.outers ++ [refs]
      | none => acc.outers := by
  unfold memberFold memberRefs
  by_cases h1 : m.1 = "way"
  · rw [if_neg (by simp [h1]), if_pos h1]
    cases hw : wayGet ways m.2.1 with
    | none => rfl
    | some wdata =>
        dsimp only
        by_cases hro : normalizeRole m.2.2 = "outer"
        · rw [if_pos (Or.inl hro), if_pos hro, if_pos hro]
          unfold mergeBuildingTags
          split <;> rfl
        · by_cases hri : normalizeRole m.2.2 = "inner"
          · rw [if_pos (Or.inr hri), if_neg hro, if_neg hro]
            unfold mergeBuildingTags
            split <;> rfl
          · rw [if_neg (by simp [hro, hri]), if_neg hro]
  · rw [if_pos h1, if_neg h1]

theorem memberFold_inners (ways : WayMap) (acc : MemberAcc) (m : Member) :
    (memberFold ways acc m).inners =
      match memberRefs ways "inner" m with
      | some refs => acc.inners ++ [refs]
      | none => acc.inners := by
  unfold memberFold memberRefs
  by_cases h1 : m.1 = "way"
  · rw [if_neg (by simp [h1]), if_pos h1]
    cases hw : wayGet ways m.2.1 with
    | none => rfl
    | some wdata =>
        dsimp only
        by_cases hri : normalizeRole m.2.2 = "inner"
        · have hro : ¬ normalizeRole m.2.2 = "outer" := by
            rw [hri]
            decide
          rw [if_pos (Or.inr hri), if_neg hro, if_pos hri]
          unfold mergeBuildingTags
          split <;> rfl
        · by_cases hro : normalizeRole m.2.2 = "outer"
          · rw [if_pos (Or.inl hro), if_pos hro, if_neg hri]
            unfold mergeBuildingTags
            split <;> rfl
          · rw [if_neg (by simp [hro, hri]), if_neg hri]
  · rw [if_pos h1, if_neg h1]

theorem memberFold_groups (ways : WayMap) :
    ∀ (members : List Member) (acc : MemberAcc),
      (members.foldl (memberFold ways) acc).outers
          = acc.outers ++ members.filterMap (memberRefs ways "outer") ∧
      (members.foldl (memberFold ways) acc).inners
          = acc.inners ++ members.filterMap (memberRefs ways "inner") := by
  intro members
  induction members with
  | nil => intro acc; simp
  | cons m ms ih =>
      intro acc
      simp only [List.foldl_cons, List.filterMap_cons]
      obtain ⟨iho, ihi⟩ := ih (memberFold ways acc m)
      constructor
      · rw [iho, memberFold_outers]
        cases hx : memberRefs ways "outer" m with
        | none => rfl
        | some refs => simp
      · rw [ihi, memberFold_inners]
        cases hx : memberRefs ways "inner" m with
        | none => rfl
        | some refs => simp

/-- Claim C5, amended: member roles are normalised before grouping — a
*missing* role defaults to `outer`; `outline`, `exterior`, `shell` map to
`outer`; `interior`, `hole` map to `inner` (case-insensitively) — but a
member way whose normalised role is neither `outer` nor `inner` is skipped
and contributes its node sequence to *neither* group (it does not default
to `outer`); the two groups collect exactly the node sequences of the
resolvable member ways whose normalised role matches. -/
theorem c5_role_grouping (ways : WayMap) (members : List Member) (tags : TagMap) :
    (normalizeRole "" = "outer" ∧ normalizeRole "outline" = "outer" ∧
     normalizeRole "exterior" = "outer" ∧ normalizeRole "shell" = "outer" ∧
     normalizeRole "interior" = "inner" ∧ normalizeRole "hole" = "inner" ∧
     normalizeRole "Outer" = "outer" ∧ normalizeRole "INNER" = "inner") ∧
    (∀ m : Member, normalizeRole m.2.2 ≠ "outer" → normalizeRole m.2.2 ≠ "inner" →
        memberRefs ways "outer" m = none ∧ memberRefs ways "inner" m = none) ∧
    (members.foldl (memberFold ways) (MemberAcc.mk [] [] tags)).outers
        = members.filterMap (memberRefs ways "outer") ∧
    (members.foldl (memberFold ways) (MemberAcc.mk [] [] tags)).inners
        = members.filterMap (memberRefs ways "inner") := by
  refine ⟨by decide, ?_, ?_, ?_⟩
  · intro m hro hri
    unfold memberRefs
    by_cases h1 : m.1 = "way"
    · rw [if_pos h1, if_pos h1]
      cases hw : wayGet ways m.2.1 with
      | none => exact ⟨rfl, rfl⟩
      | some wdata =>
          dsimp only
          rw [if_neg hro, if_neg hri]
          exact ⟨rfl, rfl⟩
    · rw [if_neg h1, if_neg h1]
      exact ⟨rfl, rfl⟩
  · exact (memberFold_groups ways members _).1
  · exact (memberFold_groups ways members _).2

/-- Witness for amended C5: the member `("way", 1, "unknown")` has a role
normalising to neither group and contributes to neither group. -/
theorem c5_role_grouping_witness :
    memberRefs [(1, ([1, 2, 3, 1], []))] "outer" ("way", 1, "unknown") = none ∧
    memberRefs [(1, ([1, 2, 3, 1], []))] "inner" ("way", 1, "unknown") = none :=
  (c5_role_grouping [(1, ([1, 2, 3, 1], []))] [] []).2.1
    ("way", 1, "unknown") (by decide) (by decide)

/-- Counterexample to claim C5 as stated: a member way with the unrecognised
role `unknown` does not default to `outer` — it is skipped, so it
contributes its node sequence to neither the outer nor the inner group,
even though the way itself is present and resolvable. -/
theorem c5_counterexample :
    (([("way", 1, "unknown")] : List Member).foldl
        (memberFold [(1, ([1, 2, 3, 1], []))])
        (MemberAcc.mk [] [] [("building", "yes")])).outers = [] ∧
    (([("way", 1, "unknown")] : List Member).foldl
        (memberFold [(1, ([1, 2, 3, 1], []))])
        (MemberAcc.mk [] [] [("building", "yes")])).inners = [] ∧
    wayGet [(1, ([1, 2, 3, 1], []))] 1 = some ([1, 2, 3, 1], []) := by
  decide

/-! ### Claim C6: relation-vs-way conflict resolution -/

theorem relationWayIdsStep_mem (ways : WayMap) (acc : List Nat)
    (rel : Nat × (List Member × TagMap)) (wid : Nat) :
    wid ∈ relationWayIdsStep ways acc rel ↔
      wid ∈ acc ∨ (typeOk rel.2.2 = true ∧
        (is_building rel.2.2 || membersHaveBuilding ways rel.2.1) = true ∧
        ∃ role, ("way", wid, role) ∈ rel.2.1) := by
  unfold relationWayIdsStep
  by_cases h1 : typeOk rel.2.2 = true
  · rw [if_pos h1]
    by_cases h2 : (is_building rel.2.2 || membersHaveBuilding ways rel.2.1) = true
    · rw [if_pos h2, List.mem_append]
      constructor
      · rintro (h | h)
        · exact Or.inl h
        · refine Or.inr ⟨h1, h2, ?_⟩
          obtain ⟨m, hm, hval⟩ := List.mem_filterMap.mp h
          by_cases hmw : m.1 = "way"
          · rw [if_pos hmw] at hval
            simp only [Option.some.injEq] at hval
            refine ⟨m.2.2, ?_⟩
            have hme : ("way", wid, m.2.2) = m := by
              rw [← hmw, ← hval]
            rw [hme]
            exact hm
          · rw [if_neg hmw] at hval
            exact absurd hval (by simp)
      · rintro (h | ⟨_, _, role, hrole⟩)
        · exact Or.inl h
        · refine Or.inr (List.mem_filterMap.mpr ⟨("way", wid, role), hrole, ?_⟩)
          simp
    · rw [if_neg h2]
      constructor
      · exact Or.inl
      · rintro (h | ⟨_, hh2, _⟩)
        · exact h
        · exact absurd hh2 h2
  · rw [if_neg h1]
    constructor
    · exact Or.inl
    · rintro (h | ⟨hh1, _⟩)
      · exact h
      · exact absurd hh1 h1

theorem relationWayIds_go (ways : WayMap) :
    ∀ (relations : RelMap) (acc : List Nat) (wid : Nat),
      wid ∈ relations.foldl (relationWayIdsStep ways) acc ↔
        wid ∈ acc ∨ ∃ rel, rel ∈ relations ∧ typeOk rel.2.2 = true ∧
          (is_building rel.2.2 || membersHaveBuilding ways rel.2.1) = true ∧
          ∃ role, ("way", wid, role) ∈ rel.2.1 := by
  intro relations
  induction relations with
  | nil => intro acc wid; simp
  | cons rel rels ih =>
      intro acc wid
      simp only [List.foldl_cons]
      rw [ih, relationWayIdsStep_mem]
      constructor
      · rintro ((h | h) | ⟨r2, hr2, hrest⟩)
        · exact Or.inl h
        · exact Or.inr ⟨rel, List.mem_cons_self rel rels, h⟩
        · exact Or.inr ⟨r2, List.mem_cons.mpr (Or.inr hr2), hrest⟩
      · rintro (h | ⟨r2, hr2, hrest⟩)
        · exact Or.inl (Or.inl h)
        · rcases List.mem_cons.mp hr2 with he | hm
          · subst he
            exact Or.inl (Or.inr hrest)
          · exact Or.inr ⟨r2, hm, hrest⟩

/-- Claim C6, amended: a closed building-tagged way is excluded from
standalone simple-way extraction iff it is referenced as a member way — in
*any* role, outer or inner — of a qualifying relation (accepted `type` tag
and building semantics on the relation or a member way) and is not itself
tagged `building:part`; contrary to the original claim, a way that is only
an *inner* member of such a relation is excluded as well.  A way carrying
`building:part` (or referenced by no qualifying relation) still yields its
own standalone Feature. -/
theorem c6_way_exclusion (nodes : NodeMap) (ways : WayMap) (relations : RelMap) :
    (∀ w : Nat × (List Nat × TagMap),
        is_building w.2.2 = true →
        ((w.1 ∈ relationWayIds ways relations ∧ tagGet w.2.2 "building:part" = none) →
          standaloneWayFeature nodes (relationWayIds ways relations) w = none) ∧
        (¬(w.1 ∈ relationWayIds ways relations ∧ tagGet w.2.2 "building:part" = none) →
          standaloneWayFeature nodes (relationWayIds ways relations) w
            = extract_way_feature w.1 nodes w.2.1 w.2.2)) ∧
    (∀ wid : Nat, wid ∈ relationWayIds ways relations ↔
        ∃ rel, rel ∈ relations ∧ typeOk rel.2.2 = true ∧
          (is_building rel.2.2 || membersHaveBuilding ways rel.2.1) = true ∧
          ∃ role, ("way", wid, role) ∈ rel.2.1) ∧
    collect_features nodes ways relations
      = ways.filterMap (standaloneWayFeature nodes (relationWayIds ways relations)) ++
          relationPart nodes ways (relationCandidates relations) := by
  refine ⟨?_, ?_, rfl⟩
  · intro w hb
    constructor
    · rintro ⟨hc, hp⟩
      unfold standaloneWayFeature
      rw [if_neg (by simp [hb])]
      rw [if_pos (by
        rw [Bool.and_eq_true]
        exact ⟨List.elem_iff.mpr hc, by simp [hp]⟩)]
    · intro hneg
      unfold standaloneWayFeature
      rw [if_neg (by simp [hb])]
      have hcond : ¬(((relationWayIds ways relations).contains w.1 &&
          (tagGet w.2.2 "building:part").isNone) = true) := by
        intro hand
        rw [Bool.and_eq_true] at hand
        exact hneg ⟨List.elem_iff.mp hand.1, Option.isNone_iff_eq_none.mp hand.2⟩
      rw [if_neg hcond]
  · intro wid
    rw [show relationWayIds ways relations
        = relations.foldl (relationWayIdsStep ways) [] from rfl]
    rw [relationWayIds_go]
    simp

/-- Witness for amended C6: the closed building way 5, referenced only as an
`inner` member of a qualifying multipolygon relation and carrying no
`building:part` tag, is excluded from standalone extraction. -/
theorem c6_way_exclusion_witness :
    standaloneWayFeature
        [(1, (Frac.ofNat 0, Frac.ofNat 0)), (2, (Frac.ofNat 0, Frac.ofNat 1)),
         (3, (Frac.ofNat 1, Frac.ofNat 0))]
        (relationWayIds [(5, ([1, 2, 3, 1], [("building", "yes")]))]
          [(9, ([("way", 5, "inner")], [("type", "multipolygon"), ("building", "yes")]))])
        (5, ([1, 2, 3, 1], [("building", "yes")])) = none :=
  ((c6_way_exclusion
      [(1, (Frac.ofNat 0, Frac.ofNat 0)), (2, (Frac.ofNat 0, Frac.ofNat 1)),
       (3, (Frac.ofNat 1, Frac.ofNat 0))]
      [(5, ([1, 2, 3, 1], [("building", "yes")]))]
      [(9, ([("way", 5, "inner")], [("type", "multipolygon"), ("building", "yes")]))]).1
    (5, ([1, 2, 3, 1], [("building", "yes")])) (by decide)).1
    ⟨by decide, by decide⟩

/-- Counterexample to claim C6 as stated: way 5 is a closed building-tagged
way that is referenced only as an *inner* member of a qualifying relation
(and carries no `building:part` tag).  The claim predicts that it still
yields its own standalone Feature, but `collect_features` emits nothing at
all: the way is excluded (it is in `relation_way_ids`), and the relation
itself produces no feature since it has no outer member. -/
theorem c6_counterexample :
    collect_features
        [(1, (Frac.ofNat 0, Frac.ofNat 0)), (2, (Frac.ofNat 0, Frac.ofNat 1)),
         (3, (Frac.ofNat 1, Frac.ofNat 0))]
        [(5, ([1, 2, 3, 1], [("building", "yes")]))]
        [(9, ([("way", 5, "inner")], [("type", "multipolygon"), ("building", "yes")]))]
      = [] ∧
    (extract_way_feature 5
        [(1, (Frac.ofNat 0, Frac.ofNat 0)), (2, (Frac.ofNat 0, Frac.ofNat 1)),
         (3, (Frac.ofNat 1, Frac.ofNat 0))]
        [1, 2, 3, 1] [("building", "yes")]).isSome = true ∧
    relationWayIds [(5, ([1, 2, 3, 1], [("building", "yes")]))]
        [(9, ([("way", 5, "inner")], [("type", "multipolygon"), ("building", "yes")]))]
      = [5] := by
  decide

/-! ### Origin determination (`determine_origin`, osm_to_3dm.py lines 395-408) -/

/-- The coordinates one Feature contributes, in traversal order: outer ring
points first, then the points of each hole. -/
def featureCoords (f : Feature) : List Pt :=
  f.outer ++ f.holes.foldl (fun a h => a ++ h) []

/-- All coordinates of all Features, in traversal order. -/
def allCoords (features : List Feature) : List Pt :=
  features.foldl (fun a f => a ++ featureCoords f) []

/-- Embedding of `determine_origin`: the mean latitude and longitude over
every collected coordinate; the `ValueError` on an empty coordinate list
becomes `none`. -/
def determine_origin (features : List Feature) : Option (Frac × Frac) :=
  if allCoords features = [] then none
  else
    some
      (Frac.div (fracSum ((allCoords features).map Prod.fst))
        (Frac.ofNat (allCoords features).length),
       Frac.div (fracSum ((allCoords features).map Prod.snd))
        (Frac.ofNat (allCoords features).length))

theorem foldl_append_join {α β : Type _} (g : β → List α) :
    ∀ (fs : List β) (acc : List α),
      fs.foldl (fun a f => a ++ g f) acc = acc ++ (fs.map g).join := by
  intro fs
  induction fs with
  | nil => intro acc; simp
  | cons f fs ih => intro acc; simp [ih, List.append_assoc]

theorem fracSum_toRat (xs : List Frac) :
    (fracSum xs).toRat = (xs.map Frac.toRat).sum := by
  have aux : ∀ (l : List Frac) (a : Frac),
      (l.foldl Frac.add a).toRat = a.toRat + (l.map Frac.toRat).sum := by
    intro l
    induction l with
    | nil => intro a; simp
    | cons x l ih =>
        intro a
        simp only [List.foldl_cons, List.map_cons, List.sum_cons]
        rw [ih, show Frac.add a x = a + x from rfl, Frac.toRat_add]
        ring
  unfold fracSum
  rw [aux]
  simp [Frac.toRat_ofNat]

/-- Specification-side unweighted arithmetic mean of a list of rationals. -/
def meanQ (xs : List ℚ) : ℚ := xs.sum / xs.length

/-- The contributed coordinates, re-expressed with `List.join`. -/
theorem featureCoords_eq (f : Feature) :
    featureCoords f = f.outer ++ f.holes.join := by
  unfold featureCoords
  rw [show (fun (a h : List Pt) => a ++ h) = (fun (a : List Pt) (h : List Pt) => a ++ id h)
    from rfl]
  rw [foldl_append_join]
  simp

theorem allCoords_eq (features : List Feature) :
    allCoords features = (features.map featureCoords).join := by
  unfold allCoords
  rw [foldl_append_join]
  simp

theorem allCoords_nil_iff (features : List Feature) :
    allCoords features = [] ↔
      ∀ f ∈ features, f.outer = [] ∧ ∀ h ∈ f.holes, h = [] := by
  rw [allCoords_eq, List.join_eq_nil_iff]
  constructor
  · intro hall f hf
    have hfc : featureCoords f = [] := hall _ (List.mem_map_of_mem _ hf)
    rw [featureCoords_eq, List.append_eq_nil] at hfc
    exact ⟨hfc.1, fun h hh => List.join_eq_nil_iff.mp hfc.2 h hh⟩
  · intro hall l hl
    obtain ⟨f, hf, rfl⟩ := List.mem_map.mp hl
    rw [featureCoords_eq, List.append_eq_nil]
    exact ⟨(hall f hf).1, List.join_eq_nil_iff.mpr (hall f hf).2⟩

/-- Claim C8: `determine_origin` fails exactly when the Features contain no
coordinates at all (every outer ring and every hole empty); in every other
case it succeeds and returns the unweighted arithmetic mean of every
coordinate — outer-ring and hole points alike, duplicates counted — across
every Feature. -/
theorem c8_determine_origin (features : List Feature) :
    (determine_origin features = none ↔
      ∀ f ∈ features, f.outer = [] ∧ ∀ h ∈ f.holes, h = []) ∧
    (allCoords features ≠ [] →
      (determine_origin features).map (fun p => (p.1.toRat, p.2.toRat))
        = some (meanQ ((allCoords features).map (fun q => q.1.toRat)),
                meanQ ((allCoords features).map (fun q => q.2.toRat)))) := by
  constructor
  · unfold determine_origin
    by_cases he : allCoords features = []
    · rw [if_pos he]
      simp only [true_iff]
      exact (allCoords_nil_iff features).mp he
    · rw [if_neg he]
      constructor
      · intro hc
        exact absurd hc (by simp)
      · intro hP
        exact absurd ((allCoords_nil_iff features).mpr hP) he
  · intro hne
    have hlen : (allCoords features).length ≠ 0 :=
      fun e => hne (List.length_eq_zero.mp e)
    have hnum : (Frac.ofNat (allCoords features).length).num ≠ 0 := by
      unfold Frac.ofNat
      simpa using hlen
    unfold determine_origin
    rw [if_neg hne, Option.map_some']
    dsimp only
    rw [Option.some.injEq, Prod.mk.injEq]
    constructor
    · rw [Frac.toRat_div _ _ hnum, fracSum_toRat, Frac.toRat_ofNat]
      unfold meanQ
      rw [List.map_map, List.length_map]
      rfl
    · rw [Frac.toRat_div _ _ hnum, fracSum_toRat, Frac.toRat_ofNat]
      unfold meanQ
      rw [List.map_map, List.length_map]
      rfl

/-- Witness for C8: one Feature with two outer points and no holes has the
mean of its two coordinates as origin. -/
theorem c8_determine_origin_witness :
    (determine_origin
        [Feature.mk "way/1"
          [(Frac.ofNat 1, Frac.ofNat 2), (Frac.ofNat 3, Frac.ofNat 4)] [] []]).map
        (fun p => (p.1.toRat, p.2.toRat))
      = some
          (meanQ ((allCoords
              [Feature.mk "way/1"
                [(Frac.ofNat 1, Frac.ofNat 2), (Frac.ofNat 3, Frac.ofNat 4)] [] []]).map
            (fun q => q.1.toRat)),
           meanQ ((allCoords
              [Feature.mk "way/1"
                [(Frac.ofNat 1, Frac.ofNat 2), (Frac.ofNat 3, Frac.ofNat 4)] [] []]).map
            (fun q => q.2.toRat))) :=
  (c8_determine_origin
      [Feature.mk "way/1"
        [(Frac.ofNat 1, Frac.ofNat 2), (Frac.ofNat 3, Frac.ofNat 4)] [] []]).2
    (by decide)

/-! ### Claim C10: safety of the ray-casting division -/

/-- Claim C10: for every ring — including rings with horizontal edges, where
consecutive points share a latitude — and every query point, the ray-casting
containment test never divides by zero and always returns a boolean: the
effective denominator of every edge is nonzero, a zero `y2 - y1` being
replaced by the constant `1e-12` before the division; in particular the
test evaluates on the unit square (two horizontal edges) and reports its
centre as inside. -/
theorem c10_ray_casting_safe :
    (∀ y1 y2 : Frac, (edgeDenominator y1 y2).toRat ≠ 0) ∧
    (∀ y1 y2 : Frac, Frac.beq (y2 - y1) (Frac.ofNat 0) = true →
        edgeDenominator y1 y2 = mkFrac 1 (10 ^ 12)) ∧
    (∀ (ring : List Pt) (point : Pt),
        ring_contains_point ring point = true ∨ ring_contains_point ring point = false) ∧
    ring_contains_point
        [(Frac.ofNat 0, Frac.ofNat 0), (Frac.ofNat 0, Frac.ofNat 1),
         (Frac.ofNat 1, Frac.ofNat 1), (Frac.ofNat 1, Frac.ofNat 0),
         (Frac.ofNat 0, Frac.ofNat 0)]
        (mkFrac 1 2, mkFrac 1 2) = true := by
  refine ⟨?_, ?_, ?_, by decide⟩
  · intro y1 y2
    unfold edgeDenominator
    by_cases hb : Frac.beq (y2 - y1) (Frac.ofNat 0) = true
    · rw [if_pos hb, Frac.toRat_mkFrac 1 (10 ^ 12) (by norm_num)]
      norm_num
    · rw [if_neg hb]
      intro hz
      apply hb
      rw [Frac.beq_iff, Frac.toRat_ofNat]
      simpa using hz
  · intro y1 y2 hb
    unfold edgeDenominator
    rw [if_pos hb]
  · intro ring point
    exact Bool.eq_false_or_eq_true (ring_contains_point ring point)

/-- Witness for C10: a horizontal edge (both endpoints at latitude 0) gets
the substitute denominator `1e-12`. -/
theorem c10_ray_casting_safe_witness :
    edgeDenominator (Frac.ofNat 0) (Frac.ofNat 0) = mkFrac 1 (10 ^ 12) :=
  c10_ray_casting_safe.2.1 (Frac.ofNat 0) (Frac.ofNat 0) (by decide)

/-! ### Claim C9: the local projector (over ideal reals) -/

/-- Python `math.radians`. -/
noncomputable def radiansR (x : ℝ) : ℝ := x * Real.pi / 180

/-- Embedding of `project_point` (osm_to_3dm.py lines 411-419) over ideal
reals: equirectangular tangent-plane projection with Earth radius
`6378137.0` metres. -/
noncomputable def project_point (lat lon origin_lat origin_lon : ℝ) : ℝ × ℝ :=
  (6378137.0 * radiansR (lon - origin_lon) * Real.cos (radiansR origin_lat),
   6378137.0 * (radiansR lat - radiansR origin_lat))

/-- The algebraic inverse of the projection formula, as the claim's
round-trip requires: `lat = lat0 + degrees(y / R)`,
`lon = lon0 + degrees(x / (R·cos(radians(lat0))))`. -/
noncomputable def unproject_point (x y origin_lat origin_lon : ℝ) : ℝ × ℝ :=
  (origin_lat + (y / 6378137.0) * 180 / Real.pi,
   origin_lon + (x / (6378137.0 * Real.cos (radiansR origin_lat))) * 180 / Real.pi)

/-- Claim C9: `project_point` implements the equirectangular tangent-plane
formula `x = R·radians(lon - lon0)·cos(radians(lat0))`,
`y = R·(radians(lat) - radians(lat0))` with `R = 6378137.0`; projecting the
Origin itself yields exactly `(0, 0)`; and inverting the formula recovers
the original latitude and longitude.  The inversion carries the hypothesis
`cos(radians(lat0)) ≠ 0`: over the ideal reals of the model that factor is
exactly zero at `lat0 = ±90`, but in the double-precision source the
computed `math.cos(math.radians(lat0))` is never exactly zero (`π/2` is not
representable; `math.cos(math.radians(90.0)) ≈ 6.12e-17`), so the
hypothesis excludes no input the program can realise — the exact-zero case
is an artifact of the real-number idealisation, not a behaviour of the
code. -/
theorem c9_projection (lat lon origin_lat origin_lon : ℝ)
    (hcos : Real.cos (radiansR origin_lat) ≠ 0) :
    (project_point lat lon origin_lat origin_lon
        = (6378137.0 * ((lon - origin_lon) * Real.pi / 180)
            * Real.cos (origin_lat * Real.pi / 180),
           6378137.0 * (lat * Real.pi / 180 - origin_lat * Real.pi / 180))) ∧
    project_point origin_lat origin_lon origin_lat origin_lon = (0, 0) ∧
    unproject_point (project_point lat lon origin_lat origin_lon).1
        (project_point lat lon origin_lat origin_lon).2 origin_lat origin_lon
      = (lat, lon) := by
  refine ⟨rfl, ?_, ?_⟩
  · unfold project_point radiansR
    rw [Prod.mk.injEq]
    constructor
    · rw [sub_self]
      ring
    · ring
  · have hpi := Real.pi_ne_zero
    have hR : (6378137.0 : ℝ) ≠ 0 := by norm_num
    unfold unproject_point project_point radiansR
    unfold radiansR at hcos
    rw [Prod.mk.injEq]
    constructor
    · field_simp
      ring
    · field_simp
      ring

/-- Witness for C9: a round trip through the projection at the equatorial
origin `(0, 0)`, where `cos(radians(0)) = 1 ≠ 0`. -/
theorem c9_projection_witness :
    unproject_point (project_point 1 2 0 0).1 (project_point 1 2 0 0).2 0 0 = (1, 2) :=
  (c9_projection 1 2 0 0 (by
    unfold radiansR
    rw [show (0 : ℝ) * Real.pi / 180 = 0 by ring, Real.cos_zero]
    norm_num)).2.2

/-- Witness for C4: with one unit-square outer ring, a far-away inner ring
(centroid inside no outer ring) stays in the leftover pool and appears in
no assignment, while a small ring around the square's centre (centroid
contained) is assigned to the square's hole list. -/
theorem c4_hole_assignment_witness :
    ([(Frac.ofNat 5, Frac.ofNat 5), (Frac.ofNat 5, Frac.ofNat 6),
      (Frac.ofNat 6, Frac.ofNat 6), (Frac.ofNat 5, Frac.ofNat 5)] ∈
        (assignHoles
          [[(Frac.ofNat 0, Frac.ofNat 0), (Frac.ofNat 0, Frac.ofNat 1),
            (Frac.ofNat 1, Frac.ofNat 1), (Frac.ofNat 1, Frac.ofNat 0),
            (Frac.ofNat 0, Frac.ofNat 0)]]
          [[(Frac.ofNat 5, Frac.ofNat 5), (Frac.ofNat 5, Frac.ofNat 6),
            (Frac.ofNat 6, Frac.ofNat 6), (Frac.ofNat 5, Frac.ofNat 5)]]).2 ∧
      ∀ p ∈ (assignHoles
          [[(Frac.ofNat 0, Frac.ofNat 0), (Frac.ofNat 0, Frac.ofNat 1),
            (Frac.ofNat 1, Frac.ofNat 1), (Frac.ofNat 1, Frac.ofNat 0),
            (Frac.ofNat 0, Frac.ofNat 0)]]
          [[(Frac.ofNat 5, Frac.ofNat 5), (Frac.ofNat 5, Frac.ofNat 6),
            (Frac.ofNat 6, Frac.ofNat 6), (Frac.ofNat 5, Frac.ofNat 5)]]).1,
        [(Frac.ofNat 5, Frac.ofNat 5), (Frac.ofNat 5, Frac.ofNat 6),
         (Frac.ofNat 6, Frac.ofNat 6), (Frac.ofNat 5, Frac.ofNat 5)] ∉ p.2) ∧
    (∃ hs, ([(Frac.ofNat 0, Frac.ofNat 0), (Frac.ofNat 0, Frac.ofNat 1),
              (Frac.ofNat 1, Frac.ofNat 1), (Frac.ofNat 1, Frac.ofNat 0),
              (Frac.ofNat 0, Frac.ofNat 0)], hs) ∈
          (assignHoles
            [[(Frac.ofNat 0, Frac.ofNat 0), (Frac.ofNat 0, Frac.ofNat 1),
              (Frac.ofNat 1, Frac.ofNat 1), (Frac.ofNat 1, Frac.ofNat 0),
              (Frac.ofNat 0, Frac.ofNat 0)]]
            [[(mkFrac 1 4, mkFrac 1 4), (mkFrac 1 4, mkFrac 3 4),
              (mkFrac 3 4, mkFrac 3 4), (mkFrac 1 4, mkFrac 1 4)]]).1 ∧
        [(mkFrac 1 4, mkFrac 1 4), (mkFrac 1 4, mkFrac 3 4),
         (mkFrac 3 4, mkFrac 3 4), (mkFrac 1 4, mkFrac 1 4)] ∈ hs) :=
  ⟨c4_hole_assignment.2.1
      [[(Frac.ofNat 0, Frac.ofNat 0), (Frac.ofNat 0, Frac.ofNat 1),
        (Frac.ofNat 1, Frac.ofNat 1), (Frac.ofNat 1, Frac.ofNat 0),
        (Frac.ofNat 0, Frac.ofNat 0)]]
      [[(Frac.ofNat 5, Frac.ofNat 5), (Frac.ofNat 5, Frac.ofNat 6),
        (Frac.ofNat 6, Frac.ofNat 6), (Frac.ofNat 5, Frac.ofNat 5)]]
      [(Frac.ofNat 5, Frac.ofNat 5), (Frac.ofNat 5, Frac.ofNat 6),
       (Frac.ofNat 6, Frac.ofNat 6), (Frac.ofNat 5, Frac.ofNat 5)]
      (by decide) (by decide),
   c4_hole_assignment.2.2.2.2.1
      [[(Frac.ofNat 0, Frac.ofNat 0), (Frac.ofNat 0, Frac.ofNat 1),
        (Frac.ofNat 1, Frac.ofNat 1), (Frac.ofNat 1, Frac.ofNat 0),
        (Frac.ofNat 0, Frac.ofNat 0)]]
      [[(mkFrac 1 4, mkFrac 1 4), (mkFrac 1 4, mkFrac 3 4),
        (mkFrac 3 4, mkFrac 3 4), (mkFrac 1 4, mkFrac 1 4)]]
      [(mkFrac 1 4, mkFrac 1 4), (mkFrac 1 4, mkFrac 3 4),
       (mkFrac 3 4, mkFrac 3 4), (mkFrac 1 4, mkFrac 1 4)]
      [(Frac.ofNat 0, Frac.ofNat 0), (Frac.ofNat 0, Frac.ofNat 1),
       (Frac.ofNat 1, Frac.ofNat 1), (Frac.ofNat 1, Frac.ofNat 0),
       (Frac.ofNat 0, Frac.ofNat 0)]
      (by decide) (by decide)⟩
